import Mathlib

/-!
Verification of the `Sentence` normalizer/boundary-scanner core
(`src/sentence.rs` of kyranet/word-match).

Characters are modelled as Unicode code points (`Nat`); strings as
`List Nat`.  The external confusable table (`crate::confusables`, not part
of the sources) and the standard-library lowercase mapping are modelled as
explicit function parameters `conf` / `lower`, following the spec's
contract for the normalizer.
-/

namespace WordMatch

/-- Rust `char::is_whitespace`: the Unicode `White_Space` property,
listed explicitly over code points. -/
def is_whitespace (c : Nat) : Bool :=
  decide (c = 0x09 ∨ c = 0x0A ∨ c = 0x0B ∨ c = 0x0C ∨ c = 0x0D ∨ c = 0x20 ∨ c = 0x85 ∨
    c = 0xA0 ∨ c = 0x1680 ∨ (0x2000 ≤ c ∧ c ≤ 0x200A) ∨ c = 0x2028 ∨ c = 0x2029 ∨
    c = 0x202F ∨ c = 0x205F ∨ c = 0x3000)

/-- Rust `char::is_control`: the Unicode `Cc` category. -/
def is_control (c : Nat) : Bool :=
  decide (c ≤ 0x1F ∨ (0x7F ≤ c ∧ c ≤ 0x9F))

/-- The filler test `c.is_whitespace() || c.is_control()` used at
sentence.rs lines 67, 86 and 96. -/
def is_filler (c : Nat) : Bool :=
  is_whitespace c || is_control c

/-- The `Boundary` enum of sentence.rs lines 7-19. -/
inductive Boundary where
  | Start
  | Word
  | End
  | Mixed
  | NoContent
  deriving DecidableEq, Repr

/-- `Boundary::is_word` of sentence.rs lines 22-27. -/
def Boundary.is_word : Boundary → Bool
  | .Start | .Word | .End | .Mixed => true
  | .NoContent => false

/-- The `Sentence` struct of sentence.rs lines 31-51 (field `indexes` is
the word-marker vector). -/
structure Sentence where
  checked : List Bool
  boundaries : List Boundary
  contents : List Nat
  indexes : List (Nat × Nat)
  deriving DecidableEq, Repr

/-- The initial classification computed at sentence.rs lines 67-77 from the
previously emitted boundary (`boundaries.last()`) and the current character. -/
def base_of (prev : Option Boundary) (c : Nat) : Boundary :=
  if is_filler c then Boundary.NoContent
  else
    match prev with
    | some b => if b.is_word then Boundary.Word else Boundary.Start
    | none => Boundary.Start

/-- The peek upgrade of sentence.rs lines 79-102: a `Start` whose next
character is missing or filler becomes `Mixed`; a `Word` in the same
situation becomes `End`; anything else is unchanged. -/
def peek_upgrade (b : Boundary) (next : Option Nat) : Boundary :=
  if b = Boundary.Start then
    match next with
    | some c => if is_filler c then Boundary.Mixed else Boundary.Start
    | none => Boundary.Mixed
  else if b = Boundary.Word then
    match next with
    | some c => if is_filler c then Boundary.End else Boundary.Word
    | none => Boundary.End
  else b

/-- The `while let Some(c) = chars.next()` loop of sentence.rs lines 66-107.
Each iteration pushes `false` onto `checked`, the upgraded boundary onto
`boundaries` and the character onto `contents`; when the base classification
is `Start` it first pushes `(contents.len(), contents.len())` onto `indexes`
(lines 79-81), before the upgrade check, so `Mixed` positions also receive a
marker. -/
def scanLoop : List Nat → List Bool → List Boundary → List Nat → List (Nat × Nat) → Sentence
  | [], checked, boundaries, contents, indexes => ⟨checked, boundaries, contents, indexes⟩
  | c :: rest, checked, boundaries, contents, indexes =>
      scanLoop rest (checked ++ [false])
        (boundaries ++ [peek_upgrade (base_of boundaries.getLast? c) rest.head?])
        (contents ++ [c])
        (if base_of boundaries.getLast? c = Boundary.Start then
          indexes ++ [(contents.length, contents.length)]
        else indexes)

/-- Modelled from the spec: `replace_confusables` lives in
`crate::confusables`, which is not part of the sources.  Per the spec's
normalizer contract, each character is independently replaced by an
externally supplied mapping `conf` (identity for characters absent from the
table, possibly 1-to-many). -/
def replace_confusables (conf : Nat → List Nat) (s : List Nat) : List Nat :=
  s.flatMap conf

/-- Modelled from the spec: the normalization pipeline of sentence.rs line
57, `sentence.replace_confusables().to_lowercase()`.  The
standard-library lowercase mapping is abstracted as the externally supplied
total function `lower`. -/
def normalize (conf : Nat → List Nat) (lower : List Nat → List Nat) (s : List Nat) : List Nat :=
  lower (replace_confusables conf s)

/-- `Sentence::new` of sentence.rs lines 56-110: normalize, then run the
scanning loop starting from four empty vectors. -/
def Sentence.new (conf : Nat → List Nat) (lower : List Nat → List Nat)
    (sentence : List Nat) : Sentence :=
  scanLoop (normalize conf lower sentence) [] [] [] []

/-- `Sentence::length` of sentence.rs lines 113-115: `contents.len() as u32`.
The `as u32` cast reduces the `usize` length modulo `2 ^ 32`. -/
def Sentence.length (t : Sentence) : Nat :=
  t.contents.length % 2 ^ 32

/-- `Sentence::js_to_string` of sentence.rs lines 118-120 together with the
`Display` impl at lines 123-127: collect `contents` back into a string. -/
def Sentence.js_to_string (t : Sentence) : List Nat :=
  t.contents

/-- Does a boundary open a word, i.e. is it `Start` or `Mixed`? -/
def isStartish (b : Boundary) : Bool :=
  decide (b = Boundary.Start ∨ b = Boundary.Mixed)

/-- The positions of a boundary sequence holding `Start` or `Mixed`. -/
def startPositions (bs : List Boundary) : List Nat :=
  (List.range bs.length).filter fun i => isStartish (bs.getD i Boundary.NoContent)

/-- Invariant carried through `scanLoop`: `full` is the whole canonical
character list, `cs` the prefix consumed so far, and `checked`, `bs`, `idx`
the accumulated parallel outputs. -/
structure ScanInv (full : List Nat) (checked : List Bool) (bs : List Boundary)
    (cs : List Nat) (idx : List (Nat × Nat)) : Prop where
  hchk : checked = List.replicate cs.length false
  hlen : bs.length = cs.length
  hidx : idx = (startPositions bs).map fun p => (p, p)
  hnc : ∀ i, i < bs.length →
    (bs.getD i Boundary.NoContent = Boundary.NoContent ↔ is_filler (full.getD i 0) = true)
  hstart : ∀ i, i < bs.length → isStartish (bs.getD i Boundary.NoContent) = true →
    i = 0 ∨ bs.getD (i - 1) Boundary.NoContent = Boundary.NoContent
  hword : ∀ i, i < bs.length →
    (bs.getD i Boundary.NoContent = Boundary.Word ∨
      bs.getD i Boundary.NoContent = Boundary.End) →
    0 < i ∧ (bs.getD (i - 1) Boundary.NoContent).is_word = true
  hclass : ∀ i, i < bs.length → is_filler (full.getD i 0) = false →
    bs.getD i Boundary.NoContent =
      peek_upgrade
        (if i = 0 then Boundary.Start
          else if (bs.getD (i - 1) Boundary.NoContent).is_word then Boundary.Word
          else Boundary.Start)
        ((full.drop (i + 1)).head?)

/-- ASCII lowercasing of a single code point, used to instantiate the
abstract `lower` parameter on concrete inputs. -/
def asciiLower (c : Nat) : Nat :=
  if 65 ≤ c ∧ c ≤ 90 then c + 32 else c

/-- ASCII lowercasing of a code-point sequence. -/
def asciiLowerStr (s : List Nat) : List Nat :=
  s.map asciiLower

/-- A confusable table that rewrites `q` (0x71) to `g` (0x67) and leaves
every other character alone.  It is idempotent in the per-character sense. -/
def confQ (c : Nat) : List Nat :=
  if c = 113 then [103] else [c]

/-- The code points of the raw input `"Steve drowned"`. -/
def steveRaw : List Nat :=
  [83, 116, 101, 118, 101, 32, 100, 114, 111, 119, 110, 101, 100]

/-- The code points of the canonical form `"steve drowned"`. -/
def steveCanon : List Nat :=
  [115, 116, 101, 118, 101, 32, 100, 114, 111, 119, 110, 101, 100]

/-- An input of `2 ^ 32` copies of `a` (0x61), whose canonical character
count overflows a `u32`. -/
def hugeInput : List Nat :=
  List.replicate (2 ^ 32) 97

/-! List helper lemmas. -/

theorem getD_append_lt {α : Type} (l l2 : List α) (i : Nat) (d : α) (h : i < l.length) :
    (l ++ l2).getD i d = l.getD i d := by
  simp [List.getD_eq_getElem?_getD, List.getElem?_append_left h]

theorem getD_append_length {α : Type} (l l2 : List α) (d : α) :
    (l ++ l2).getD l.length d = l2.getD 0 d := by
  simp [List.getD_eq_getElem?_getD, List.getElem?_append_right (Nat.le_refl _)]

theorem getLast?_eq_getD {α : Type} (l : List α) (d : α) (h : l ≠ []) :
    l.getLast? = some (l.getD (l.length - 1) d) := by
  rw [List.getLast?_eq_getElem? l, List.getD_eq_getElem?_getD]
  have hlen : l.length - 1 < l.length := by
    cases l with
    | nil => exact absurd rfl h
    | cons a t => simp
  rw [List.getElem?_eq_getElem hlen]
  rfl

theorem startPositions_nil : startPositions [] = [] := by
  simp [startPositions]

theorem startPositions_concat (bs : List Boundary) (b : Boundary) :
    startPositions (bs ++ [b]) =
      startPositions bs ++ if isStartish b = true then [bs.length] else [] := by
  unfold startPositions
  rw [List.length_append]
  simp only [List.length_singleton]
  rw [List.range_succ, List.filter_append]
  congr 1
  · refine List.filter_congr ?_
    intro i hi
    rw [getD_append_lt bs [b] i Boundary.NoContent (List.mem_range.mp hi)]
  · rw [List.filter_singleton]
    have hb : (bs ++ [b]).getD bs.length Boundary.NoContent = b := by
      rw [getD_append_length]
      rfl
    rw [hb]
    cases isStartish b <;> simp

/-! Boundary case lemmas. -/

theorem is_word_eq_false_iff (b : Boundary) :
    b.is_word = false ↔ b = Boundary.NoContent := by
  cases b <;> simp [Boundary.is_word]

theorem base_of_cases (prev : Option Boundary) (c : Nat) :
    base_of prev c = Boundary.NoContent ∨ base_of prev c = Boundary.Start ∨
      base_of prev c = Boundary.Word := by
  unfold base_of
  by_cases hf : is_filler c = true
  · simp [hf]
  · cases prev with
    | none => simp [hf]
    | some b =>
      simp only [Bool.not_eq_true] at hf
      simp only [hf]
      by_cases hw : b.is_word = true <;> simp [hw]

theorem base_of_nocontent_iff (prev : Option Boundary) (c : Nat) :
    base_of prev c = Boundary.NoContent ↔ is_filler c = true := by
  unfold base_of
  by_cases hf : is_filler c = true
  · simp [hf]
  · simp only [Bool.not_eq_true] at hf
    simp only [hf, Bool.false_eq_true, if_false]
    cases prev with
    | none => simp
    | some b => by_cases hw : b.is_word = true <;> simp [hw]

theorem peek_upgrade_nocontent_iff (b : Boundary) (next : Option Nat) :
    peek_upgrade b next = Boundary.NoContent ↔ b = Boundary.NoContent := by
  cases next with
  | none => cases b <;> simp [peek_upgrade]
  | some c =>
    by_cases hf : is_filler c = true
    · cases b <;> simp [peek_upgrade, hf]
    · simp only [Bool.not_eq_true] at hf
      cases b <;> simp [peek_upgrade, hf]

theorem isStartish_peek_upgrade (b : Boundary) (next : Option Nat)
    (hb : b = Boundary.NoContent ∨ b = Boundary.Start ∨ b = Boundary.Word) :
    isStartish (peek_upgrade b next) = true ↔ b = Boundary.Start := by
  have hgo : ∀ bv : Boundary, bv = Boundary.NoContent ∨ bv = Boundary.Start ∨
      bv = Boundary.Word → (isStartish (peek_upgrade bv next) = true ↔ bv = Boundary.Start) := by
    intro bv hbv
    cases next with
    | none =>
      rcases hbv with h | h | h <;> subst h <;> simp [peek_upgrade, isStartish]
    | some c =>
      by_cases hf : is_filler c = true
      · rcases hbv with h | h | h <;> subst h <;> simp [peek_upgrade, isStartish, hf]
      · simp only [Bool.not_eq_true] at hf
        rcases hbv with h | h | h <;> subst h <;> simp [peek_upgrade, isStartish, hf]
  exact hgo b hb

theorem peek_upgrade_word_end (b : Boundary) (next : Option Nat)
    (hb : b = Boundary.NoContent ∨ b = Boundary.Start ∨ b = Boundary.Word)
    (h : peek_upgrade b next = Boundary.Word ∨ peek_upgrade b next = Boundary.End) :
    b = Boundary.Word := by
  rcases hb with hbv | hbv | hbv <;> subst hbv
  · cases next with
    | none => simp [peek_upgrade] at h
    | some c =>
      by_cases hf : is_filler c = true
      · simp [peek_upgrade, hf] at h
      · simp only [Bool.not_eq_true] at hf
        simp [peek_upgrade, hf] at h
  · cases next with
    | none => simp [peek_upgrade] at h
    | some c =>
      by_cases hf : is_filler c = true
      · simp [peek_upgrade, hf] at h
      · simp only [Bool.not_eq_true] at hf
        simp [peek_upgrade, hf] at h
  · rfl

theorem base_of_eq_start (p : Boundary) (c : Nat)
    (h : base_of (some p) c = Boundary.Start) : p.is_word = false := by
  unfold base_of at h
  by_cases hf : is_filler c = true
  · simp [hf] at h
  · simp only [Bool.not_eq_true] at hf
    simp only [hf, Bool.false_eq_true, if_false] at h
    by_cases hw : p.is_word = true
    · simp [hw] at h
    · simpa using hw

theorem base_of_eq_word (prev : Option Boundary) (c : Nat)
    (h : base_of prev c = Boundary.Word) :
    ∃ p, prev = some p ∧ p.is_word = true := by
  unfold base_of at h
  by_cases hf : is_filler c = true
  · simp [hf] at h
  · simp only [Bool.not_eq_true] at hf
    simp only [hf, Bool.false_eq_true, if_false] at h
    cases prev with
    | none => simp at h
    | some p =>
      refine ⟨p, rfl, ?_⟩
      by_cases hw : p.is_word = true
      · exact hw
      · simp [Bool.not_eq_true] at hw
        simp [hw] at h

theorem base_of_not_filler (prev : Option Boundary) (c : Nat) (hf : is_filler c = false) :
    base_of prev c =
      match prev with
      | some b => if b.is_word then Boundary.Word else Boundary.Start
      | none => Boundary.Start := by
  unfold base_of
  simp [hf]

/-! Preservation of the scanning invariant by one loop iteration. -/

theorem ScanInv.step (cs : List Nat) (c : Nat) (rest : List Nat) (checked : List Bool)
    (bs : List Boundary) (idx : List (Nat × Nat))
    (h : ScanInv (cs ++ c :: rest) checked bs cs idx) :
    ScanInv (cs ++ c :: rest) (checked ++ [false])
      (bs ++ [peek_upgrade (base_of bs.getLast? c) rest.head?])
      (cs ++ [c])
      (if base_of bs.getLast? c = Boundary.Start then
        idx ++ [(cs.length, cs.length)]
      else idx) := by
  have hn : bs.length = cs.length := h.hlen
  have hfc : (cs ++ c :: rest).getD cs.length 0 = c := by
    rw [getD_append_length]
    rfl
  have hfull : cs ++ c :: rest = (cs ++ [c]) ++ rest := by simp
  have hdrop : (cs ++ c :: rest).drop (cs.length + 1) = rest := by
    rw [hfull]
    have hl : (cs ++ [c]).length = cs.length + 1 := by simp
    rw [← hl]
    exact List.drop_left _ _
  have hbsum : (bs ++ [peek_upgrade (base_of bs.getLast? c) rest.head?]).length
      = bs.length + 1 := by simp
  have hbnew : (bs ++ [peek_upgrade (base_of bs.getLast? c) rest.head?]).getD bs.length
      Boundary.NoContent = peek_upgrade (base_of bs.getLast? c) rest.head? := by
    rw [getD_append_length]
    rfl
  have hbold : ∀ i, i < bs.length →
      (bs ++ [peek_upgrade (base_of bs.getLast? c) rest.head?]).getD i Boundary.NoContent
        = bs.getD i Boundary.NoContent := fun i hi =>
    getD_append_lt bs _ i Boundary.NoContent hi
  refine ⟨?_, ?_, ?_, ?_, ?_, ?_, ?_⟩
  · rw [h.hchk]
    have hl : (cs ++ [c]).length = cs.length + 1 := by simp
    rw [hl, List.replicate_succ']
  · simp [hn]
  · rw [startPositions_concat, List.map_append, ← h.hidx]
    by_cases hb : base_of bs.getLast? c = Boundary.Start
    · rw [if_pos hb,
        if_pos ((isStartish_peek_upgrade _ rest.head? (base_of_cases _ _)).mpr hb)]
      simp [hn]
    · rw [if_neg hb,
        if_neg (fun hh => hb ((isStartish_peek_upgrade _ rest.head? (base_of_cases _ _)).mp hh))]
      simp
  · intro i hi
    rw [hbsum] at hi
    rcases Nat.lt_succ_iff_lt_or_eq.mp hi with hlt | heq
    · rw [hbold i hlt]
      exact h.hnc i hlt
    · subst heq
      rw [hbnew]
      have h2 : (cs ++ c :: rest).getD bs.length 0 = c := by rw [hn]; exact hfc
      rw [h2, peek_upgrade_nocontent_iff, base_of_nocontent_iff]
  · intro i hi hs
    rw [hbsum] at hi
    rcases Nat.lt_succ_iff_lt_or_eq.mp hi with hlt | heq
    · rw [hbold i hlt] at hs
      rcases h.hstart i hlt hs with h0 | h0
      · exact Or.inl h0
      · refine Or.inr ?_
        rw [hbold (i - 1) (by omega)]
        exact h0
    · subst heq
      rw [hbnew] at hs
      have hb : base_of bs.getLast? c = Boundary.Start :=
        (isStartish_peek_upgrade _ rest.head? (base_of_cases _ _)).mp hs
      rcases Nat.eq_zero_or_pos bs.length with h0 | h0
      · exact Or.inl h0
      · refine Or.inr ?_
        have hne : bs ≠ [] := by
          intro hh
          rw [hh] at h0
          simp at h0
        have hlp : bs.getLast? = some (bs.getD (bs.length - 1) Boundary.NoContent) :=
          getLast?_eq_getD bs Boundary.NoContent hne
        rw [hlp] at hb
        have hw : (bs.getD (bs.length - 1) Boundary.NoContent).is_word = false :=
          base_of_eq_start _ c hb
        rw [hbold (bs.length - 1) (by omega)]
        exact (is_word_eq_false_iff _).mp hw
  · intro i hi hw
    rw [hbsum] at hi
    rcases Nat.lt_succ_iff_lt_or_eq.mp hi with hlt | heq
    · rw [hbold i hlt] at hw
      rcases h.hword i hlt hw with ⟨h0, h1⟩
      refine ⟨h0, ?_⟩
      rw [hbold (i - 1) (by omega)]
      exact h1
    · subst heq
      rw [hbnew] at hw
      have hb : base_of bs.getLast? c = Boundary.Word :=
        peek_upgrade_word_end _ rest.head? (base_of_cases _ _) hw
      rcases base_of_eq_word bs.getLast? c hb with ⟨p, hp, hpw⟩
      have hne : bs ≠ [] := by
        intro hbs
        rw [hbs] at hp
        simp [List.getLast?] at hp
      have hpos : 0 < bs.length := List.length_pos.mpr hne
      refine ⟨hpos, ?_⟩
      have hlp : bs.getLast? = some (bs.getD (bs.length - 1) Boundary.NoContent) :=
        getLast?_eq_getD bs Boundary.NoContent hne
      rw [hlp] at hp
      have hpe : p = bs.getD (bs.length - 1) Boundary.NoContent := by
        injection hp with hp2
        exact hp2.symm
      rw [hbold (bs.length - 1) (by omega)]
      rw [← hpe]
      exact hpw
  · intro i hi hf
    rw [hbsum] at hi
    rcases Nat.lt_succ_iff_lt_or_eq.mp hi with hlt | heq
    · rw [hbold i hlt]
      have hrec := h.hclass i hlt hf
      rcases Nat.eq_zero_or_pos i with h0 | h0
      · subst h0
        simpa using hrec
      · rw [hbold (i - 1) (by omega)]
        exact hrec
    · subst heq
      rw [hbnew]
      have h2 : (cs ++ c :: rest).getD bs.length 0 = c := by rw [hn]; exact hfc
      rw [h2] at hf
      have hdrop2 : ((cs ++ c :: rest).drop (bs.length + 1)).head? = rest.head? := by
        rw [hn, hdrop]
      rw [hdrop2]
      congr 1
      rcases Nat.eq_zero_or_pos bs.length with h0 | h0
      · rw [if_pos h0]
        have hbs : bs = [] := List.length_eq_zero.mp h0
        rw [hbs, base_of_not_filler _ c hf]
        rfl
      · rw [if_neg (by omega)]
        have hne : bs ≠ [] := by
          intro hh
          rw [hh] at h0
          simp at h0
        have hlp : bs.getLast? = some (bs.getD (bs.length - 1) Boundary.NoContent) :=
          getLast?_eq_getD bs Boundary.NoContent hne
        rw [hbold (bs.length - 1) (by omega)]
        rw [base_of_not_filler _ c hf, hlp]

/-! The invariant holds of the loop's result, by induction over the input. -/

theorem scanLoop_inv (rest : List Nat) :
    ∀ (checked : List Bool) (bs : List Boundary) (cs : List Nat) (idx : List (Nat × Nat)),
      ScanInv (cs ++ rest) checked bs cs idx →
      ScanInv (cs ++ rest) (scanLoop rest checked bs cs idx).checked
        (scanLoop rest checked bs cs idx).boundaries (scanLoop rest checked bs cs idx).contents
        (scanLoop rest checked bs cs idx).indexes := by
  induction rest with
  | nil =>
    intro checked bs cs idx h
    simpa [scanLoop] using h
  | cons c rest ih =>
    intro checked bs cs idx h
    have hfull : cs ++ c :: rest = (cs ++ [c]) ++ rest := by simp
    have h2 := ScanInv.step cs c rest checked bs idx h
    rw [hfull] at h2
    have h3 := ih (checked ++ [false])
      (bs ++ [peek_upgrade (base_of bs.getLast? c) rest.head?]) (cs ++ [c])
      (if base_of bs.getLast? c = Boundary.Start then
        idx ++ [(cs.length, cs.length)]
      else idx) h2
    rw [← hfull] at h3
    simpa only [scanLoop] using h3

theorem scanLoop_contents (l : List Nat) :
    ∀ (checked : List Bool) (bs : List Boundary) (cs : List Nat) (idx : List (Nat × Nat)),
      (scanLoop l checked bs cs idx).contents = cs ++ l := by
  induction l with
  | nil =>
    intro checked bs cs idx
    simp [scanLoop]
  | cons c rest ih =>
    intro checked bs cs idx
    simp only [scanLoop]
    rw [ih]
    simp

theorem new_scanInv (conf : Nat → List Nat) (lower : List Nat → List Nat) (s : List Nat) :
    ScanInv (normalize conf lower s) (Sentence.new conf lower s).checked
      (Sentence.new conf lower s).boundaries (Sentence.new conf lower s).contents
      (Sentence.new conf lower s).indexes := by
  have h0 : ScanInv ([] ++ normalize conf lower s) [] [] [] [] := by
    refine ⟨rfl, rfl, by simp [startPositions_nil], ?_, ?_, ?_, ?_⟩ <;>
      intro i hi <;> exact absurd hi (Nat.not_lt_zero i)
  have h1 := scanLoop_inv (normalize conf lower s) [] [] [] [] h0
  simpa [Sentence.new] using h1

theorem new_contents (conf : Nat → List Nat) (lower : List Nat → List Nat) (s : List Nat) :
    (Sentence.new conf lower s).contents = normalize conf lower s := by
  have h1 := scanLoop_contents (normalize conf lower s) [] [] [] []
  simpa [Sentence.new] using h1

theorem replace_confusables_id_on (conf : Nat → List Nat) (l : List Nat)
    (h : ∀ a ∈ l, conf a = [a]) : replace_confusables conf l = l := by
  unfold replace_confusables
  induction l with
  | nil => simp
  | cons a t ih =>
    rw [List.flatMap_cons, h a (by simp), ih (fun x hx => h x (by simp [hx]))]
    rfl

theorem asciiLower_idem (c : Nat) : asciiLower (asciiLower c) = asciiLower c := by
  unfold asciiLower
  split_ifs <;> omega

theorem asciiLowerStr_idem (l : List Nat) :
    asciiLowerStr (asciiLowerStr l) = asciiLowerStr l := by
  unfold asciiLowerStr
  rw [List.map_map]
  exact List.map_congr_left fun a _ => asciiLower_idem a

/-! Claim theorems. -/

/-- Claim C1: for every input, the word-marker list is exactly the degenerate
start-offset list: it is the `(p, p)` pairs over the positions `p` whose
boundary is `Start` or `Mixed`, in order, and its length is the number of
such positions; no entry ever records a word's end. -/
theorem word_markers_are_start_offsets (conf : Nat → List Nat)
    (lower : List Nat → List Nat) (s : List Nat) :
    (Sentence.new conf lower s).indexes =
      (startPositions (Sentence.new conf lower s).boundaries).map (fun p => (p, p)) ∧
    (Sentence.new conf lower s).indexes.length =
      (startPositions (Sentence.new conf lower s).boundaries).length := by
  refine ⟨(new_scanInv conf lower s).hidx, ?_⟩
  rw [(new_scanInv conf lower s).hidx, List.length_map]

/-- Claim C2: the three per-character sequences of a constructed `Sentence`
have equal length. -/
theorem parallel_lengths_equal (conf : Nat → List Nat) (lower : List Nat → List Nat)
    (s : List Nat) :
    (Sentence.new conf lower s).checked.length = (Sentence.new conf lower s).contents.length ∧
    (Sentence.new conf lower s).boundaries.length
      = (Sentence.new conf lower s).contents.length := by
  have h := new_scanInv conf lower s
  refine ⟨?_, h.hlen⟩
  rw [h.hchk, List.length_replicate]

/-- Claim C3: a position carries the `NoContent` boundary exactly when its
character is whitespace or a control character. -/
theorem nocontent_iff_filler (conf : Nat → List Nat) (lower : List Nat → List Nat)
    (s : List Nat) (i : Nat) (hi : i < (Sentence.new conf lower s).contents.length) :
    ((Sentence.new conf lower s).boundaries.getD i Boundary.NoContent = Boundary.NoContent ↔
      is_filler ((Sentence.new conf lower s).contents.getD i 0) = true) := by
  have h := new_scanInv conf lower s
  have hi2 : i < (Sentence.new conf lower s).boundaries.length := by
    rw [h.hlen]
    exact hi
  rw [new_contents conf lower s]
  exact h.hnc i hi2

theorem nocontent_iff_filler_witness :
    ((Sentence.new (fun c => [c]) (fun l => l) [97, 32]).boundaries.getD 1 Boundary.NoContent
        = Boundary.NoContent ↔
      is_filler ((Sentence.new (fun c => [c]) (fun l => l) [97, 32]).contents.getD 1 0)
        = true) :=
  nocontent_iff_filler (fun c => [c]) (fun l => l) [97, 32] 1 (by decide)

/-- Claim C4: a `Start` or `Mixed` boundary occurs only at position 0 or
right after a `NoContent` boundary, and a `Word` or `End` boundary occurs
only right after a word-bearing boundary. -/
theorem boundary_adjacency (conf : Nat → List Nat) (lower : List Nat → List Nat)
    (s : List Nat) (i : Nat) (hi : i < (Sentence.new conf lower s).boundaries.length) :
    ((Sentence.new conf lower s).boundaries.getD i Boundary.NoContent = Boundary.Start ∨
        (Sentence.new conf lower s).boundaries.getD i Boundary.NoContent = Boundary.Mixed →
      i = 0 ∨
        (Sentence.new conf lower s).boundaries.getD (i - 1) Boundary.NoContent
          = Boundary.NoContent) ∧
    ((Sentence.new conf lower s).boundaries.getD i Boundary.NoContent = Boundary.Word ∨
        (Sentence.new conf lower s).boundaries.getD i Boundary.NoContent = Boundary.End →
      0 < i ∧
        ((Sentence.new conf lower s).boundaries.getD (i - 1) Boundary.NoContent).is_word
          = true) := by
  have h := new_scanInv conf lower s
  constructor
  · intro hs
    exact h.hstart i hi (by unfold isStartish; exact decide_eq_true hs)
  · intro hw
    exact h.hword i hi hw

theorem boundary_adjacency_witness :
    ((Sentence.new (fun c => [c]) (fun l => l) [104, 105]).boundaries.getD 1 Boundary.NoContent
          = Boundary.Start ∨
        (Sentence.new (fun c => [c]) (fun l => l) [104, 105]).boundaries.getD 1
          Boundary.NoContent = Boundary.Mixed →
      1 = 0 ∨
        (Sentence.new (fun c => [c]) (fun l => l) [104, 105]).boundaries.getD 0
          Boundary.NoContent = Boundary.NoContent) ∧
    ((Sentence.new (fun c => [c]) (fun l => l) [104, 105]).boundaries.getD 1 Boundary.NoContent
          = Boundary.Word ∨
        (Sentence.new (fun c => [c]) (fun l => l) [104, 105]).boundaries.getD 1
          Boundary.NoContent = Boundary.End →
      0 < 1 ∧
        ((Sentence.new (fun c => [c]) (fun l => l) [104, 105]).boundaries.getD 0
          Boundary.NoContent).is_word = true) :=
  boundary_adjacency (fun c => [c]) (fun l => l) [104, 105] 1 (by decide)

/-- Claim C5: at every non-filler position the emitted boundary is the base
classification (from the previous boundary) upgraded by the one-character
peek: `Start` becomes `Mixed` and `Word` becomes `End` exactly when the next
character does not exist or is whitespace/control; otherwise the base
stands. -/
theorem peek_upgrade_rule (conf : Nat → List Nat) (lower : List Nat → List Nat)
    (s : List Nat) (i : Nat) (hi : i < (Sentence.new conf lower s).boundaries.length)
    (hnf : is_filler ((Sentence.new conf lower s).contents.getD i 0) = false) :
    (Sentence.new conf lower s).boundaries.getD i Boundary.NoContent =
      peek_upgrade
        (if i = 0 then Boundary.Start
          else if ((Sentence.new conf lower s).boundaries.getD (i - 1)
              Boundary.NoContent).is_word then Boundary.Word
          else Boundary.Start)
        (((Sentence.new conf lower s).contents.drop (i + 1)).head?) := by
  have h := new_scanInv conf lower s
  rw [new_contents conf lower s] at hnf
  rw [new_contents conf lower s]
  exact h.hclass i hi hnf

theorem peek_upgrade_rule_witness :
    (Sentence.new (fun c => [c]) (fun l => l) [104, 105]).boundaries.getD 0 Boundary.NoContent =
      peek_upgrade
        (if 0 = 0 then Boundary.Start
          else if ((Sentence.new (fun c => [c]) (fun l => l) [104, 105]).boundaries.getD
              (0 - 1) Boundary.NoContent).is_word then Boundary.Word
          else Boundary.Start)
        (((Sentence.new (fun c => [c]) (fun l => l) [104, 105]).contents.drop
          (0 + 1)).head?) :=
  peek_upgrade_rule (fun c => [c]) (fun l => l) [104, 105] 0 (by decide) (by decide)

/-- Claim C6: under a confusable mapping that leaves the characters of
`"Steve drowned"` unchanged and standard lowercasing of that string,
construction yields canonical contents `"steve drowned"`, the boundary
run `[Start, Word, Word, Word, End, NoContent, Start, Word, Word, Word,
Word, Word, End]` and markers `[(0, 0), (6, 6)]`. -/
theorem steve_drowned_example (conf : Nat → List Nat) (lower : List Nat → List Nat)
    (hconf : ∀ c ∈ steveRaw, conf c = [c]) (hlower : lower steveRaw = steveCanon) :
    (Sentence.new conf lower steveRaw).contents = steveCanon ∧
    (Sentence.new conf lower steveRaw).boundaries =
      [Boundary.Start, Boundary.Word, Boundary.Word, Boundary.Word, Boundary.End,
        Boundary.NoContent, Boundary.Start, Boundary.Word, Boundary.Word, Boundary.Word,
        Boundary.Word, Boundary.Word, Boundary.End] ∧
    (Sentence.new conf lower steveRaw).indexes = [(0, 0), (6, 6)] := by
  have h1 : Sentence.new conf lower steveRaw = scanLoop steveCanon [] [] [] [] := by
    unfold Sentence.new normalize
    rw [replace_confusables_id_on conf steveRaw hconf, hlower]
  rw [h1]
  decide

theorem steve_drowned_example_witness :
    (Sentence.new (fun c => [c]) asciiLowerStr steveRaw).contents = steveCanon ∧
    (Sentence.new (fun c => [c]) asciiLowerStr steveRaw).boundaries =
      [Boundary.Start, Boundary.Word, Boundary.Word, Boundary.Word, Boundary.End,
        Boundary.NoContent, Boundary.Start, Boundary.Word, Boundary.Word, Boundary.Word,
        Boundary.Word, Boundary.Word, Boundary.End] ∧
    (Sentence.new (fun c => [c]) asciiLowerStr steveRaw).indexes = [(0, 0), (6, 6)] :=
  steve_drowned_example (fun c => [c]) asciiLowerStr (by decide) (by decide)

/-- Claim C7: construction is total (the embedding is a total function with
no error path), and the empty input yields the empty `Sentence`: no
characters, no boundaries, no markers, and `length() = 0`. -/
theorem construction_total_on_empty (conf : Nat → List Nat) (lower : List Nat → List Nat)
    (hlower : lower [] = []) :
    Sentence.new conf lower [] = ⟨[], [], [], []⟩ ∧
      Sentence.length (Sentence.new conf lower []) = 0 := by
  have h1 : Sentence.new conf lower [] = ⟨[], [], [], []⟩ := by
    unfold Sentence.new normalize replace_confusables
    rw [List.flatMap_nil, hlower]
    rfl
  refine ⟨h1, ?_⟩
  rw [h1]
  rfl

theorem construction_total_on_empty_witness :
    Sentence.new (fun c => [c]) (fun l => l) [] = ⟨[], [], [], []⟩ ∧
      Sentence.length (Sentence.new (fun c => [c]) (fun l => l) []) = 0 :=
  construction_total_on_empty (fun c => [c]) (fun l => l) rfl

/-- Claim C9: immediately after construction every `checked` entry is
`false`; in this pure embedding `length()` and `toString()` are functions
that read the `Sentence` and return a value, so no field is ever mutated by
them. -/
theorem checked_all_false (conf : Nat → List Nat) (lower : List Nat → List Nat)
    (s : List Nat) :
    (Sentence.new conf lower s).checked =
      List.replicate (Sentence.new conf lower s).contents.length false :=
  (new_scanInv conf lower s).hchk

/-- Claim C8, counterexample: per-character idempotence of the confusable
table does not make `normalize(render(s)) = render(s)`.  The table
`confQ` (rewrite lowercase `q` to `g`, keep everything else, in particular
keep uppercase `Q`) is idempotent, lowercasing is idempotent, yet for the
input `"Q"` the rendered text is `"q"` and renormalizing it yields `"g"`. -/
theorem table_idempotence_insufficient :
    (∀ c, (confQ c).flatMap confQ = confQ c) ∧
    (∀ l, asciiLowerStr (asciiLowerStr l) = asciiLowerStr l) ∧
    normalize confQ asciiLowerStr ((Sentence.new confQ asciiLowerStr [81]).js_to_string) ≠
      (Sentence.new confQ asciiLowerStr [81]).js_to_string := by
  refine ⟨?_, asciiLowerStr_idem, by decide⟩
  intro c
  by_cases h : c = 113
  · subst h
    decide
  · simp [confQ, h]

/-- Claim C8, amended: `normalize(render(s)) = render(s)` holds when
lowercasing is idempotent and the confusable table maps every character of
the normalized text to itself. -/
theorem render_renormalize_idempotent (conf : Nat → List Nat) (lower : List Nat → List Nat)
    (s : List Nat) (hlower : ∀ l, lower (lower l) = lower l)
    (hconf : ∀ y ∈ normalize conf lower s, conf y = [y]) :
    normalize conf lower ((Sentence.new conf lower s).js_to_string) =
      (Sentence.new conf lower s).js_to_string := by
  have hjs : (Sentence.new conf lower s).js_to_string = normalize conf lower s := by
    unfold Sentence.js_to_string
    exact new_contents conf lower s
  rw [hjs]
  calc normalize conf lower (normalize conf lower s)
      = lower (replace_confusables conf (normalize conf lower s)) := rfl
    _ = lower (normalize conf lower s) := by
        rw [replace_confusables_id_on conf _ hconf]
    _ = lower (lower (replace_confusables conf s)) := rfl
    _ = lower (replace_confusables conf s) := hlower _
    _ = normalize conf lower s := rfl

theorem render_renormalize_idempotent_witness :
    normalize (fun c => [c]) (fun l => l)
        ((Sentence.new (fun c => [c]) (fun l => l) [97]).js_to_string) =
      (Sentence.new (fun c => [c]) (fun l => l) [97]).js_to_string :=
  render_renormalize_idempotent (fun c => [c]) (fun l => l) [97]
    (fun _ => rfl) (by decide)

theorem length_def (t : Sentence) : Sentence.length t = t.contents.length % 2 ^ 32 := rfl

theorem hugeContents :
    (Sentence.new (fun c => [c]) (fun l => l) hugeInput).contents = hugeInput := by
  rw [new_contents]
  show replace_confusables (fun c => [c]) hugeInput = hugeInput
  exact replace_confusables_id_on _ _ (fun a _ => rfl)

theorem hugeContentsLength :
    (Sentence.new (fun c => [c]) (fun l => l) hugeInput).contents.length = 2 ^ 32 := by
  rw [hugeContents]
  unfold hugeInput
  exact List.length_replicate _ _

theorem hugeLengthZero :
    Sentence.length (Sentence.new (fun c => [c]) (fun l => l) hugeInput) = 0 := by
  rw [length_def, hugeContentsLength, Nat.mod_self]

/-- Claim C10, counterexample: `length()` casts the character count to
`u32`, so an input whose canonical character count is `2 ^ 32` reports
length `0`, not the count of characters in `contents`. -/
theorem length_truncates :
    Sentence.length (Sentence.new (fun c => [c]) (fun l => l) hugeInput) ≠
      (Sentence.new (fun c => [c]) (fun l => l) hugeInput).contents.length := by
  rw [hugeLengthZero, hugeContentsLength]
  intro h
  exact absurd h.symm (by positivity)

/-- Claim C10, amended: `length()` returns the character count reduced
modulo `2 ^ 32`, hence the exact count of characters in `contents` for
every input whose canonical character count fits in a `u32`. -/
theorem length_counts_characters (conf : Nat → List Nat) (lower : List Nat → List Nat)
    (s : List Nat) (h : (Sentence.new conf lower s).contents.length < 2 ^ 32) :
    Sentence.length (Sentence.new conf lower s)
      = (Sentence.new conf lower s).contents.length := by
  rw [length_def]
  exact Nat.mod_eq_of_lt h

theorem length_counts_characters_witness :
    Sentence.length (Sentence.new (fun c => [c]) (fun l => l) [104, 105])
      = (Sentence.new (fun c => [c]) (fun l => l) [104, 105]).contents.length :=
  length_counts_characters (fun c => [c]) (fun l => l) [104, 105] (by decide)

end WordMatch
